import Mathlib

/-!
Shallow embedding of the video upload / reconciliation logic of the
`closer-assesment` repository.

The embedded code:
* `validateFile` — the client-side upload validator (VideoUpload component,
  `validateFile`, src/unnamed/part_001 lines 34-47);
* `updateVideoStatus`, `getVideoById` — the in-memory video-map server
  actions (src/app/actions/videos.ts lines 48-76 and 215-229);
* `getVideos` — the reconciler (src/app/actions/videos.ts lines 78-213),
  split into the helper passes the source performs: building the
  metadata-by-URL index, resolving each blob through the four priority
  tiers, merging into the result map, and sorting.

Modelling conventions:
* JavaScript `Map` objects become association lists with JS `Map` semantics:
  `set` overwrites in place (keeping the original insertion position) and
  appends otherwise, so value enumeration follows insertion order.
* The module-level mutable `videos` map (the Ephemeral Cache) is passed and
  returned explicitly; in-place mutations of a record that is also held by
  the cache are modelled by re-storing the updated value under its key.
* `uploadedAt` is modelled as the `Nat` returned by
  `new Date(uploadedAt).getTime()`, which is the only way the code consumes it.
* A thrown per-item fetch error is modelled by a `none` element of the
  corresponding listing; a thrown `listAll` is modelled by the whole listing
  being `none`.
* `Date.now()` is passed in as the `now : Nat` parameter.
-/

namespace VideoApp

/-- Lifecycle status of a video (`Video.status` in src/lib/types.ts). -/
inductive VideoStatus where
  | uploading
  | processing
  | completed
  | error
deriving DecidableEq, Repr

/-- A transcription document (`Transcription` in src/lib/types.ts).  The
reconciler and the merge step branch only on the truthiness of
`transcription?.text`; the remaining fields (service id, words, utterances,
completion timestamp) are carried around opaquely by the code and never
inspected, so a value of this structure stands for the whole document. -/
structure Transcription where
  text : String
deriving DecidableEq, Repr

/-- A video record (`Video` in src/lib/types.ts). -/
structure Video where
  id : String
  name : String
  url : String
  size : Nat
  uploadedAt : Nat
  status : VideoStatus
  transcription : Option Transcription := none
deriving DecidableEq, Repr

/-- JS `Map.prototype.get` on an insertion-ordered association list. -/
def mapGet? (m : List (String × Video)) (k : String) : Option Video :=
  match m with
  | [] => none
  | (k2, v) :: rest => if k2 = k then some v else mapGet? rest k

/-- JS `Map.prototype.set`: overwrite in place when the key exists (keeping
its position), append otherwise. -/
def mapSet (m : List (String × Video)) (k : String) (v : Video) :
    List (String × Video) :=
  match m with
  | [] => [(k, v)]
  | (k2, v2) :: rest =>
    if k2 = k then (k, v) :: rest else (k2, v2) :: mapSet rest k v

/-- `Array.from(map.values())`: values in insertion order. -/
def mapValues (m : List (String × Video)) : List Video := m.map Prod.snd

/-- Accumulator-based core of `jsSplit`. -/
def jsSplitAux (sep : Char) : List Char → List Char → List (List Char)
  | [], acc => [acc.reverse]
  | c :: cs, acc =>
    if c = sep then acc.reverse :: jsSplitAux sep cs []
    else jsSplitAux sep cs (c :: acc)

/-- JavaScript `String.prototype.split` with a one-character separator:
`"".split(s)` gives `[""]`, a leading separator gives a leading `""`. -/
def jsSplit (sep : Char) (s : List Char) : List (List Char) := jsSplitAux sep s []

/-- `fileName.split('_')[0] || Date.now().toString()`
(src/app/actions/videos.ts line 115).  JS `||` takes the fallback exactly
when the first split piece is the empty string. -/
def extractVideoId (fileName : String) (now : Nat) : String :=
  let first := String.mk ((jsSplit '_' fileName.toList).headD [])
  if first = "" then toString now else first

/-- `url.split('?')[0]` (src/app/actions/videos.ts lines 97 and 116). -/
def cleanUrl (u : String) : String := String.mk ((jsSplit '?' u.toList).headD [])

/-- `fileName.substring(fileName.indexOf('_') + 1) || fileName`
(src/app/actions/videos.ts line 158): the part after the first `_`
(`indexOf` returning -1 makes `substring(0)` the whole string), falling back
to the whole filename when that part is empty. -/
def videoBaseName (fileName : String) : String :=
  let rest :=
    match fileName.toList.findIdx? (fun c => c = '_') with
    | some i => String.mk (fileName.toList.drop (i + 1))
    | none => fileName
  if rest = "" then fileName else rest

/-! ### Upload validation (VideoUpload component) -/

/-- The two fields `validateFile` reads off the `File`. -/
structure FileInfo where
  type : String
  size : Nat
deriving DecidableEq, Repr

/-- The two rejection messages `validateFile` can return. -/
inductive ValidationError where
  /-- `'Please upload a valid video file (MP4, WebM, OGG, or MOV)'` -/
  | invalidType
  /-- `'File size must be less than 250MB'` -/
  | tooLarge
deriving DecidableEq, Repr

/-- `const maxSize = 250 * 1024 * 1024` (src/unnamed/part_001 line 35). -/
def maxSize : Nat := 250 * 1024 * 1024

/-- `const allowedTypes = [...]` (src/unnamed/part_001 line 36). -/
def allowedTypes : List String :=
  ["video/mp4", "video/webm", "video/ogg", "video/quicktime"]

/-- `validateFile` (src/unnamed/part_001 lines 34-47); `none` models the JS
`null` return, i.e. the file is accepted. -/
def validateFile (file : FileInfo) : Option ValidationError :=
  if !(allowedTypes.contains file.type) then some .invalidType
  else if file.size > maxSize then some .tooLarge
  else none

/-! ### Server actions over the in-memory map (src/app/actions/videos.ts) -/

/-- Result shape of `updateVideoStatus` / `getVideoById`. -/
structure ActionResult where
  success : Bool
  error : Option String := none
  data : Option Video := none
deriving DecidableEq, Repr

/-- `updateVideoStatus` (src/app/actions/videos.ts lines 48-76).  The
module-level `videos` map is the first argument and is returned updated;
`if (transcription) video.transcription = transcription` keeps the old
transcription when the argument is absent. -/
def updateVideoStatus (videos : List (String × Video)) (videoId : String)
    (status : VideoStatus) (transcription : Option Transcription) :
    ActionResult × List (String × Video) :=
  match mapGet? videos videoId with
  | none => ({ success := false, error := some "Video not found" }, videos)
  | some video =>
    let v2 : Video :=
      { video with
        status := status
        transcription :=
          match transcription with
          | some t => some t
          | none => video.transcription }
    ({ success := true, data := some v2 }, mapSet videos videoId v2)

/-- `getVideoById` (src/app/actions/videos.ts lines 215-229). -/
def getVideoById (videos : List (String × Video)) (videoId : String) :
    ActionResult :=
  match mapGet? videos videoId with
  | none => { success := false, error := some "Video not found" }
  | some video => { success := true, data := some video }

/-! ### The reconciler (`getVideos`, src/app/actions/videos.ts lines 78-213) -/

/-- One listed object of the `videos/` namespace together with the values the
loop fetches for it: `itemRef.name`, its download URL, and
`getMetadata(itemRef)`'s `size` and `timeCreated`. -/
structure BlobItem where
  name : String
  url : String
  size : Nat
  timeCreated : Nat
deriving DecidableEq, Repr

/-- The metadata pass (lines 91-103): fetch every metadata document and index
it by the record's own URL with the query string stripped
(`metadataByUrl.set(cleanUrl, videoData)`).  A `none` element models an item
whose download or JSON parse threw; the per-item `catch` skips it. -/
def buildMetadataIndex (metaItems : List (Option Video)) :
    List (String × Video) :=
  metaItems.foldl
    (fun idx it =>
      match it with
      | none => idx
      | some videoData => mapSet idx (cleanUrl videoData.url) videoData)
    []

/-- The four-tier resolution of one blob (lines 120-165).  `index` is
`metadataByUrl`; `metaById` models `loadVideoDataFromStorage` (lines 16-28,
`none` when `metadata/{id}.json` is missing or unreadable); `videos` is the
in-memory cache.  Returns the resolved record and the updated cache: tiers 1,
2 and 4 call `videos.set(id, video)` explicitly, and tier 3's in-place
`video.url = url` mutates the record held by the cache, modelled by
re-storing it. Tier 2 keeps the saved document's own `id` field (the code
refreshes only `url` and `size` there). -/
def resolveVideo (index : List (String × Video))
    (metaById : String → Option Video) (videos : List (String × Video))
    (item : BlobItem) (now : Nat) : Video × List (String × Video) :=
  let id := extractVideoId item.name now
  match mapGet? index (cleanUrl item.url) with
  | some metaVideo =>
    let v : Video := { metaVideo with id := id, url := item.url, size := item.size }
    (v, mapSet videos id v)
  | none =>
    match metaById id with
    | some savedVideoData =>
      let v : Video := { savedVideoData with url := item.url, size := item.size }
      (v, mapSet videos id v)
    | none =>
      match mapGet? videos id with
      | some cached =>
        let v : Video := { cached with url := item.url }
        (v, mapSet videos id v)
      | none =>
        let v : Video :=
          { id := id
            name := videoBaseName item.name
            url := item.url
            size := item.size
            uploadedAt := item.timeCreated
            status := .completed
            transcription := none }
        (v, mapSet videos id v)

/-- Truthiness of `video.transcription?.text`. -/
def hasTranscriptText (v : Video) : Bool :=
  match v.transcription with
  | some t => t.text != ""
  | none => false

/-- The duplicate-id merge into the result map (lines 167-176): replace the
existing entry only when the incoming record has transcript text and the
existing one does not; otherwise keep the first-seen record. -/
def mergeIntoMap (videoMap : List (String × Video)) (id : String)
    (video : Video) : List (String × Video) :=
  match mapGet? videoMap id with
  | some existing =>
    if hasTranscriptText video && !(hasTranscriptText existing) then
      mapSet videoMap id video
    else videoMap
  | none => mapSet videoMap id video

/-- The per-blob loop (lines 108-180) threading the cache and the result map.
A `none` element models a blob whose URL or metadata fetch threw; the
per-item `catch` (lines 177-179) skips it. -/
def processBlobs (index : List (String × Video))
    (metaById : String → Option Video) (now : Nat) :
    List (Option BlobItem) → List (String × Video) → List (String × Video) →
    List (String × Video) × List (String × Video)
  | [], videos, videoMap => (videos, videoMap)
  | none :: rest, videos, videoMap =>
    processBlobs index metaById now rest videos videoMap
  | some item :: rest, videos, videoMap =>
    let r := resolveVideo index metaById videos item now
    processBlobs index metaById now rest r.2
      (mergeIntoMap videoMap (extractVideoId item.name now) r.1)

/-- Stable insertion of one record into a list sorted descending by
`uploadedAt`: the comparator `b - a` puts `v` before the first strictly
older record. -/
def insertDesc (v : Video) : List Video → List Video
  | [] => [v]
  | w :: rest =>
    if w.uploadedAt < v.uploadedAt then v :: w :: rest else w :: insertDesc v rest

/-- Lines 183-185: sort descending by upload time (JS `Array.prototype.sort`
is stable). -/
def sortVideos (l : List Video) : List Video :=
  l.foldl (fun acc v => insertDesc v acc) []

/-- What `getVideos` observes of Firebase Storage: the two listings (each
`none` when its `listAll` throws — both are handled by the `catch` at line
193) and the per-id metadata fetch used by tier 2. -/
structure StorageListing where
  metaItems : Option (List (Option Video))
  blobItems : Option (List (Option BlobItem))
  metaById : String → Option Video

/-- Result shape of `getVideos`. -/
structure VideosResult where
  success : Bool
  error : Option String := none
  data : List Video
deriving DecidableEq, Repr

/-- `getVideos` (src/app/actions/videos.ts lines 78-213).  On either listing
failure, the `catch` at line 193 returns the Ephemeral Cache contents sorted
the same way and reports success; the cache is left untouched.  (The outer
`catch` at line 205 can only fire on storage-handle initialization, which is
outside the storage behaviour modelled here.) -/
def getVideos (st : StorageListing) (videos : List (String × Video))
    (now : Nat) : VideosResult × List (String × Video) :=
  match st.metaItems, st.blobItems with
  | some metaItems, some blobItems =>
    let index := buildMetadataIndex metaItems
    let r := processBlobs index st.metaById now blobItems videos []
    ({ success := true, data := sortVideos (mapValues r.2) }, r.1)
  | _, _ =>
    ({ success := true, data := sortVideos (mapValues videos) }, videos)

/-- The resolution choice of `resolveVideo` as a function of the cache's
entry at the blob's derived id (the only part of the cache it reads).  Used
to factor `resolveVideo` for the idempotency analysis. -/
def chooseVideo (index : List (String × Video))
    (metaById : String → Option Video) (cached : Option Video)
    (item : BlobItem) (now : Nat) : Video :=
  let id := extractVideoId item.name now
  match mapGet? index (cleanUrl item.url) with
  | some metaVideo => { metaVideo with id := id, url := item.url, size := item.size }
  | none =>
    match metaById id with
    | some savedVideoData => { savedVideoData with url := item.url, size := item.size }
    | none =>
      match cached with
      | some c => { c with url := item.url }
      | none =>
        { id := id
          name := videoBaseName item.name
          url := item.url
          size := item.size
          uploadedAt := item.timeCreated
          status := .completed
          transcription := none }

/-- The successfully fetched blobs of a listing (the per-item `catch` skips
the rest). -/
def goodBlobs (items : List (Option BlobItem)) : List BlobItem :=
  items.filterMap id

/-- The result-map entries one reconciliation pass produces when every
resolution reads the *initial* cache (which is what happens when the derived
ids are pairwise distinct). -/
def runChoices (index : List (String × Video)) (metaById : String → Option Video)
    (now : Nat) (videos : List (String × Video))
    (items : List (Option BlobItem)) : List (String × Video) :=
  (goodBlobs items).map (fun it =>
    (extractVideoId it.name now,
     chooseVideo index metaById (mapGet? videos (extractVideoId it.name now)) it now))

/-! ### Concrete instances used by counterexamples and witnesses -/

/-- A completed record sitting in the Ephemeral Cache. -/
def demoCompleted : Video :=
  { id := "1", name := "a", url := "u", size := 1, uploadedAt := 0, status := .completed }

/-- A metadata document carrying a transcript, whose canonical URL is `"u2"`. -/
def demoMetaDoc : Video :=
  { id := "m", name := "meta", url := "u2", size := 5, uploadedAt := 50, status := .completed, transcription := some ⟨"hello"⟩ }

/-- A blob whose derived id is `"7"` and whose URL matches no metadata. -/
def demoBlobA : BlobItem := { name := "7_a", url := "u1", size := 1, timeCreated := 10 }

/-- A second blob with the same derived id `"7"`, whose canonical URL matches
`demoMetaDoc`. -/
def demoBlobB : BlobItem := { name := "7_b", url := "u2", size := 2, timeCreated := 20 }

/-- A storage state with one metadata document and two same-id blobs. -/
def demoStorage : StorageListing :=
  { metaItems := some [some demoMetaDoc]
    blobItems := some [some demoBlobA, some demoBlobB]
    metaById := fun _ => none }

/-- The same storage state with only the first blob listed, so the derived
ids are trivially distinct. -/
def demoStorageSingle : StorageListing :=
  { metaItems := some [some demoMetaDoc]
    blobItems := some [some demoBlobA]
    metaById := fun _ => none }

/-- A storage state in which the first item of each listing fails to fetch
and the second is good. -/
def demoStorageMixed : StorageListing :=
  { metaItems := some [none, some demoMetaDoc]
    blobItems := some [none, some demoBlobA]
    metaById := fun _ => none }

/-! ## Helper lemmas -/

theorem mapGet?_mapSet_self (m : List (String × Video)) (k : String) (v : Video) :
    mapGet? (mapSet m k v) k = some v := by
  induction m with
  | nil => simp [mapSet, mapGet?]
  | cons hd tl ih =>
    obtain ⟨k2, v2⟩ := hd
    by_cases h : k2 = k
    · simp [mapSet, mapGet?, h]
    · simp [mapSet, mapGet?, h, ih]

theorem mapGet?_mapSet_ne (m : List (String × Video)) (k k2 : String) (v : Video)
    (h : k ≠ k2) : mapGet? (mapSet m k v) k2 = mapGet? m k2 := by
  induction m with
  | nil => simp [mapSet, mapGet?, h]
  | cons hd tl ih =>
    obtain ⟨k3, v3⟩ := hd
    by_cases h3 : k3 = k
    · simp [mapSet, mapGet?, h3, h]
    · simp only [mapSet, if_neg h3]
      by_cases h4 : k3 = k2 <;> simp [mapGet?, h4, ih]

/-! ## Claim theorems -/

/-- C8: `validateFile` returns the MIME-type rejection exactly for declared
types outside `video/mp4`, `video/webm`, `video/ogg`, `video/quicktime`; any
allowed declared type passes the type check. -/
theorem validateFile_type_rule (f : FileInfo) :
    validateFile f = some ValidationError.invalidType ↔
      f.type ∉ (["video/mp4", "video/webm", "video/ogg", "video/quicktime"] : List String) := by
  have hmem : allowedTypes.contains f.type = true ↔
      f.type ∈ (["video/mp4", "video/webm", "video/ogg", "video/quicktime"] : List String) :=
    List.elem_iff
  unfold validateFile
  cases hb : allowedTypes.contains f.type with
  | false =>
    rw [if_pos (by simp [hb])]
    have hnot : f.type ∉ (["video/mp4", "video/webm", "video/ogg", "video/quicktime"] : List String) := by
      intro hx
      rw [hmem.mpr hx] at hb
      exact Bool.noConfusion hb
    simp [hnot]
  | true =>
    rw [if_neg (by simp [hb])]
    have hmm := hmem.mp hb
    by_cases hs : f.size > maxSize <;> simp [hs, hmm]

/-- C1 counterexample: a file of exactly 250×1024×1024 bytes with an allowed
MIME type is accepted by `validateFile` (the code compares with strict `>`),
while the claim says any size ≥ 250×1024×1024 is rejected. -/
theorem validateFile_boundary_cex :
    validateFile { type := "video/mp4", size := 250 * 1024 * 1024 } = none ∧
    250 * 1024 * 1024 ≥ maxSize ∧
    ("video/mp4" : String) ∈ allowedTypes := by
  refine ⟨by decide, le_refl _, by decide⟩

/-- C1 (amended): for a file whose MIME type is allowed, `validateFile`
returns the size rejection exactly when the size is strictly greater than
250×1024×1024 bytes, and accepts the file (returns no rejection) exactly
when the size is at most that bound. -/
theorem validateFile_size_rule (f : FileInfo) (h : f.type ∈ allowedTypes) :
    (validateFile f = some ValidationError.tooLarge ↔ maxSize < f.size) ∧
    (validateFile f = none ↔ f.size ≤ maxSize) := by
  have hc : allowedTypes.contains f.type = true := List.elem_iff.mpr h
  unfold validateFile
  rw [if_neg (by simp [hc, h])]
  by_cases hs : f.size > maxSize
  · simp [hs, Nat.not_le_of_lt hs]
  · simp [hs, Nat.le_of_not_lt hs]

theorem validateFile_size_rule_witness :
    validateFile { type := "video/webm", size := 7 } = none :=
  (validateFile_size_rule { type := "video/webm", size := 7 } (by decide)).2.mpr (by decide)

/-- C9: for an id absent from the in-memory map, `updateVideoStatus` returns
`success: false` with error `"Video not found"` and leaves the map unchanged,
and `getVideoById` returns the same not-found shape. -/
theorem videoNotFound_behavior (videos : List (String × Video)) (videoId : String)
    (status : VideoStatus) (tr : Option Transcription)
    (h : mapGet? videos videoId = none) :
    updateVideoStatus videos videoId status tr =
      ({ success := false, error := some "Video not found", data := none }, videos) ∧
    getVideoById videos videoId =
      { success := false, error := some "Video not found", data := none } := by
  constructor <;> simp [updateVideoStatus, getVideoById, h]

theorem videoNotFound_behavior_witness :
    updateVideoStatus [] "nope" VideoStatus.completed none =
      ({ success := false, error := some "Video not found", data := none }, []) ∧
    getVideoById [] "nope" =
      { success := false, error := some "Video not found", data := none } :=
  videoNotFound_behavior [] "nope" VideoStatus.completed none rfl

/-- C5 counterexample: a record whose status is `completed` is *not*
terminal — `updateVideoStatus` moves it back to `uploading`. -/
theorem updateVideoStatus_terminal_cex :
    demoCompleted.status = VideoStatus.completed ∧
    (mapGet? (updateVideoStatus [("1", demoCompleted)] "1"
        VideoStatus.uploading none).2 "1").map Video.status
      = some VideoStatus.uploading := by
  exact ⟨rfl, by decide⟩

/-- C5 (amended): `updateVideoStatus` overwrites the status of any existing
record with the requested status unconditionally — no state, `completed` and
`error` included, is treated as terminal. -/
theorem updateVideoStatus_overwrites (videos : List (String × Video))
    (videoId : String) (status : VideoStatus) (tr : Option Transcription)
    (v : Video) (h : mapGet? videos videoId = some v) :
    (updateVideoStatus videos videoId status tr).1.success = true ∧
    (mapGet? (updateVideoStatus videos videoId status tr).2 videoId).map Video.status
      = some status := by
  constructor
  · simp [updateVideoStatus, h]
  · simp [updateVideoStatus, h, mapGet?_mapSet_self]

theorem updateVideoStatus_overwrites_witness :
    (updateVideoStatus [("1", demoCompleted)] "1" VideoStatus.processing none).1.success = true ∧
    (mapGet? (updateVideoStatus [("1", demoCompleted)] "1"
        VideoStatus.processing none).2 "1").map Video.status
      = some VideoStatus.processing :=
  updateVideoStatus_overwrites [("1", demoCompleted)] "1" VideoStatus.processing none
    demoCompleted (by decide)

/-- C2: when listing the metadata or the video namespace throws, `getVideos`
reports success with the Ephemeral Cache contents sorted descending by
upload time, leaves the cache untouched, and never surfaces the failure. -/
theorem getVideos_listing_failure (st : StorageListing)
    (videos : List (String × Video)) (now : Nat)
    (h : st.metaItems = none ∨ st.blobItems = none) :
    getVideos st videos now =
      ({ success := true, error := none, data := sortVideos (mapValues videos) }, videos) := by
  rcases h with h | h
  · cases hb : st.blobItems <;> simp [getVideos, h, hb]
  · cases ha : st.metaItems <;> simp [getVideos, h, ha]

theorem getVideos_listing_failure_witness :
    getVideos { metaItems := none, blobItems := none, metaById := fun _ => none }
        [("1", demoCompleted)] 0
      = ({ success := true, error := none, data := [demoCompleted] }, [("1", demoCompleted)]) :=
  getVideos_listing_failure
    { metaItems := none, blobItems := none, metaById := fun _ => none }
    [("1", demoCompleted)] 0 (Or.inl rfl)

theorem jsSplitAux_headD (sep : Char) (l acc : List Char) :
    (jsSplitAux sep l acc).headD [] = acc.reverse ++ l.takeWhile (fun c => c != sep) := by
  induction l generalizing acc with
  | nil => simp [jsSplitAux]
  | cons c cs ih =>
    by_cases h : c = sep
    · simp [jsSplitAux, h]
    · rw [show jsSplitAux sep (c :: cs) acc = jsSplitAux sep cs (c :: acc) from by
        simp [jsSplitAux, h]]
      rw [ih]
      simp [h, List.takeWhile_cons]

theorem stringMk_eq_empty_iff (l : List Char) : (String.mk l = "") ↔ l = [] := by
  rw [String.ext_iff]

/-- C6 counterexample: for a filename with no `_` at all, the derived id is
the whole filename, not the current time — `fileName.split('_')[0]` is the
full (truthy) string, so the `Date.now()` fallback never fires. -/
theorem extractVideoId_fallback_cex :
    extractVideoId "video.mp4" 1234 = "video.mp4" ∧
    "video.mp4".toList.contains '_' = false ∧
    "video.mp4" ≠ toString 1234 := by
  refine ⟨by decide, by decide, by decide⟩

/-- C6 (amended): the derived id is the substring of the filename before the
first `_` (the whole filename when it contains no `_`); the current-time
fallback fires exactly when that substring is empty, i.e. when the filename
is empty or begins with `_`. -/
theorem extractVideoId_characterization (fn : String) (now : Nat) :
    (fn.toList.takeWhile (fun c => c != '_') = [] →
      extractVideoId fn now = toString now) ∧
    (fn.toList.takeWhile (fun c => c != '_') ≠ [] →
      extractVideoId fn now = String.mk (fn.toList.takeWhile (fun c => c != '_'))) := by
  have hhead : (jsSplit '_' fn.toList).headD [] = fn.toList.takeWhile (fun c => c != '_') := by
    simpa using jsSplitAux_headD '_' fn.toList []
  constructor
  · intro he
    unfold extractVideoId
    rw [hhead, he, if_pos (by rw [stringMk_eq_empty_iff])]
  · intro hne
    unfold extractVideoId
    rw [hhead, if_neg (by rw [stringMk_eq_empty_iff]; exact hne)]

/-- C3: the reconciler resolves each blob through the four tiers in strict
priority order, first match winning: (a) a canonical-URL hit in the metadata
index is adopted (with id, url, size refreshed) no matter what the per-id
metadata fetch or the Ephemeral Cache would say — in particular it beats a
cached record under the same id; (b) otherwise a metadata document for the
derived id is adopted with url and size refreshed; (c) otherwise a cached
record is adopted with the url refreshed; (d) otherwise a record is
synthesized from the blob alone. -/
theorem resolveVideo_priority_order (index : List (String × Video))
    (metaById : String → Option Video) (videos : List (String × Video))
    (item : BlobItem) (now : Nat) :
    (∀ m, mapGet? index (cleanUrl item.url) = some m →
      (resolveVideo index metaById videos item now).1 =
        { m with id := extractVideoId item.name now, url := item.url, size := item.size }) ∧
    (mapGet? index (cleanUrl item.url) = none →
      ∀ s, metaById (extractVideoId item.name now) = some s →
      (resolveVideo index metaById videos item now).1 =
        { s with url := item.url, size := item.size }) ∧
    (mapGet? index (cleanUrl item.url) = none →
      metaById (extractVideoId item.name now) = none →
      ∀ c, mapGet? videos (extractVideoId item.name now) = some c →
      (resolveVideo index metaById videos item now).1 = { c with url := item.url }) ∧
    (mapGet? index (cleanUrl item.url) = none →
      metaById (extractVideoId item.name now) = none →
      mapGet? videos (extractVideoId item.name now) = none →
      (resolveVideo index metaById videos item now).1 =
        { id := extractVideoId item.name now
          name := videoBaseName item.name
          url := item.url
          size := item.size
          uploadedAt := item.timeCreated
          status := .completed
          transcription := none }) := by
  refine ⟨?_, ?_, ?_, ?_⟩
  · intro m hm
    simp [resolveVideo, hm]
  · intro h1 s hs
    simp [resolveVideo, h1, hs]
  · intro h1 h2 c hc
    simp [resolveVideo, h1, h2, hc]
  · intro h1 h2 h3
    simp [resolveVideo, h1, h2, h3]

/-- C4: the duplicate-id merge replaces an existing entry exactly when the
incoming record carries transcript text and the existing one does not, and
keeps the first-seen record otherwise; hence of two candidates for one id of
which exactly one carries transcript text, the one with text survives in
either enumeration order. -/
theorem mergeIntoMap_transcript_rule (videoMap : List (String × Video))
    (id : String) (v a b : Video) :
    (∀ existing, mapGet? videoMap id = some existing →
      hasTranscriptText v = true → hasTranscriptText existing = false →
      mergeIntoMap videoMap id v = mapSet videoMap id v) ∧
    (∀ existing, mapGet? videoMap id = some existing →
      (hasTranscriptText v = false ∨ hasTranscriptText existing = true) →
      mergeIntoMap videoMap id v = videoMap) ∧
    (hasTranscriptText a = true → hasTranscriptText b = false →
      mapGet? (mergeIntoMap (mergeIntoMap [] id a) id b) id = some a ∧
      mapGet? (mergeIntoMap (mergeIntoMap [] id b) id a) id = some a) := by
  refine ⟨?_, ?_, ?_⟩
  · intro existing hex hv hexf
    simp [mergeIntoMap, hex, hv, hexf]
  · intro existing hex hcase
    rcases hcase with hv | hext
    · simp [mergeIntoMap, hex, hv]
    · simp [mergeIntoMap, hex, hext]
  · intro ha hb
    have h1 : mergeIntoMap ([] : List (String × Video)) id a = [(id, a)] := by
      simp [mergeIntoMap, mapGet?, mapSet]
    have h2 : mergeIntoMap ([] : List (String × Video)) id b = [(id, b)] := by
      simp [mergeIntoMap, mapGet?, mapSet]
    constructor
    · rw [h1]
      simp [mergeIntoMap, mapGet?, ha, hb]
    · rw [h2]
      simp [mergeIntoMap, mapGet?, mapSet, ha, hb]

/-! ## Lemmas for the idempotency analysis (C7) -/

theorem goodBlobs_cons_none (rest : List (Option BlobItem)) :
    goodBlobs (none :: rest) = goodBlobs rest := rfl

theorem goodBlobs_cons_some (it : BlobItem) (rest : List (Option BlobItem)) :
    goodBlobs (some it :: rest) = it :: goodBlobs rest := rfl

theorem mapGet?_append_of_none (m1 m2 : List (String × Video)) (k : String)
    (h : mapGet? m1 k = none) : mapGet? (m1 ++ m2) k = mapGet? m2 k := by
  induction m1 with
  | nil => simp
  | cons hd tl ih =>
    obtain ⟨k2, v2⟩ := hd
    by_cases hk : k2 = k
    · simp [mapGet?, hk] at h
    · simp only [mapGet?, if_neg hk] at h
      simpa [mapGet?, hk] using ih h

theorem mapSet_eq_append_of_none (m : List (String × Video)) (k : String)
    (v : Video) (h : mapGet? m k = none) : mapSet m k v = m ++ [(k, v)] := by
  induction m with
  | nil => simp [mapSet]
  | cons hd tl ih =>
    obtain ⟨k2, v2⟩ := hd
    by_cases hk : k2 = k
    · simp [mapGet?, hk] at h
    · simp only [mapGet?, if_neg hk] at h
      simp [mapSet, hk, ih h]

/-- `resolveVideo` factors through `chooseVideo`: the choice reads the cache
only at the derived id, and the updated cache stores the chosen record
there. -/
theorem resolveVideo_eq_choose (index : List (String × Video))
    (metaById : String → Option Video) (videos : List (String × Video))
    (item : BlobItem) (now : Nat) :
    resolveVideo index metaById videos item now =
      (chooseVideo index metaById (mapGet? videos (extractVideoId item.name now)) item now,
       mapSet videos (extractVideoId item.name now)
         (chooseVideo index metaById (mapGet? videos (extractVideoId item.name now)) item now)) := by
  cases h1 : mapGet? index (cleanUrl item.url) <;>
    cases h2 : metaById (extractVideoId item.name now) <;>
      cases h3 : mapGet? videos (extractVideoId item.name now) <;>
        simp [resolveVideo, chooseVideo, h1, h2, h3]

/-- Feeding the chosen record back as the cached entry yields the same
choice: tiers 1 and 2 never read the cache, and for tiers 3 and 4 the
record's url is already the blob's url. -/
theorem chooseVideo_fixpoint (index : List (String × Video))
    (metaById : String → Option Video) (cached : Option Video)
    (item : BlobItem) (now : Nat) :
    chooseVideo index metaById
        (some (chooseVideo index metaById cached item now)) item now
      = chooseVideo index metaById cached item now := by
  cases h1 : mapGet? index (cleanUrl item.url) <;>
    cases h2 : metaById (extractVideoId item.name now) <;>
      cases cached <;> simp [chooseVideo, h1, h2]

/-- Blobs whose derived ids all differ from `k` leave the cache unchanged
at `k`. -/
theorem processBlobs_frame (index : List (String × Video))
    (metaById : String → Option Video) (now : Nat) (k : String) :
    ∀ (items : List (Option BlobItem)) (mem vm : List (String × Video)),
    (∀ it ∈ goodBlobs items, extractVideoId it.name now ≠ k) →
    mapGet? (processBlobs index metaById now items mem vm).1 k = mapGet? mem k := by
  intro items
  induction items with
  | nil => intro mem vm _; rfl
  | cons hd rest ih =>
    cases hd with
    | none => intro mem vm hk; exact ih mem vm hk
    | some it =>
      intro mem vm hk
      have hne : extractVideoId it.name now ≠ k :=
        hk it (by rw [goodBlobs_cons_some]; exact List.mem_cons_self it _)
      have hrest : ∀ it2 ∈ goodBlobs rest, extractVideoId it2.name now ≠ k :=
        fun it2 h2 => hk it2 (by rw [goodBlobs_cons_some]; exact List.mem_cons_of_mem _ h2)
      simp only [processBlobs, resolveVideo_eq_choose]
      rw [ih _ _ hrest, mapGet?_mapSet_ne _ _ _ _ hne]

/-- Under pairwise-distinct derived ids, one pass appends to the result map
exactly the choices read off the initial cache. -/
theorem processBlobs_closed_form (index : List (String × Video))
    (metaById : String → Option Video) (now : Nat) :
    ∀ (items : List (Option BlobItem)) (mem vm : List (String × Video)),
    ((goodBlobs items).map (fun it => extractVideoId it.name now)).Nodup →
    (∀ it ∈ goodBlobs items, mapGet? vm (extractVideoId it.name now) = none) →
    (processBlobs index metaById now items mem vm).2
      = vm ++ runChoices index metaById now mem items := by
  intro items
  induction items with
  | nil => intro mem vm _ _; simp [processBlobs, runChoices, goodBlobs]
  | cons hd rest ih =>
    cases hd with
    | none =>
      intro mem vm hnd hvm
      exact (ih mem vm hnd hvm).trans rfl
    | some it =>
      intro mem vm hnd hvm
      have hvm0 : mapGet? vm (extractVideoId it.name now) = none :=
        hvm it (by rw [goodBlobs_cons_some]; exact List.mem_cons_self it _)
      rw [goodBlobs_cons_some, List.map_cons, List.nodup_cons] at hnd
      have hneq : ∀ it2 ∈ goodBlobs rest,
          extractVideoId it2.name now ≠ extractVideoId it.name now := by
        intro it2 h2 heq
        exact hnd.1 (heq ▸ List.mem_map_of_mem _ h2)
      simp only [processBlobs, resolveVideo_eq_choose]
      have hmerge : mergeIntoMap vm (extractVideoId it.name now)
          (chooseVideo index metaById (mapGet? mem (extractVideoId it.name now)) it now)
          = vm ++ [(extractVideoId it.name now,
              chooseVideo index metaById (mapGet? mem (extractVideoId it.name now)) it now)] := by
        simp only [mergeIntoMap, hvm0]
        exact mapSet_eq_append_of_none vm _ _ hvm0
      rw [hmerge]
      have hvm2 : ∀ it2 ∈ goodBlobs rest,
          mapGet? (vm ++ [(extractVideoId it.name now,
              chooseVideo index metaById (mapGet? mem (extractVideoId it.name now)) it now)])
            (extractVideoId it2.name now) = none := by
        intro it2 h2
        rw [mapGet?_append_of_none _ _ _
          (hvm it2 (by rw [goodBlobs_cons_some]; exact List.mem_cons_of_mem _ h2))]
        simp [mapGet?, Ne.symm (hneq it2 h2)]
      rw [ih (mapSet mem (extractVideoId it.name now)
          (chooseVideo index metaById (mapGet? mem (extractVideoId it.name now)) it now))
        _ hnd.2 hvm2]
      have hrc : runChoices index metaById now
          (mapSet mem (extractVideoId it.name now)
            (chooseVideo index metaById (mapGet? mem (extractVideoId it.name now)) it now))
          rest = runChoices index metaById now mem rest := by
        unfold runChoices
        apply List.map_eq_map_iff.mpr
        intro it2 h2
        rw [mapGet?_mapSet_ne mem _ _ _ (fun h => hneq it2 h2 h.symm)]
      rw [hrc]
      simp [runChoices, goodBlobs_cons_some]

/-- Under pairwise-distinct derived ids, after one pass the cache holds
exactly the chosen record at each good blob's id. -/
theorem processBlobs_mem_get (index : List (String × Video))
    (metaById : String → Option Video) (now : Nat) :
    ∀ (items : List (Option BlobItem)) (mem vm : List (String × Video)),
    ((goodBlobs items).map (fun it => extractVideoId it.name now)).Nodup →
    ∀ it ∈ goodBlobs items,
      mapGet? (processBlobs index metaById now items mem vm).1
          (extractVideoId it.name now)
        = some (chooseVideo index metaById
            (mapGet? mem (extractVideoId it.name now)) it now) := by
  intro items
  induction items with
  | nil => intro mem vm _ it h; exact absurd h (List.not_mem_nil it)
  | cons hd rest ih =>
    cases hd with
    | none => intro mem vm hnd it h; exact ih mem vm hnd it h
    | some it0 =>
      intro mem vm hnd it h
      rw [goodBlobs_cons_some] at h
      rw [goodBlobs_cons_some, List.map_cons, List.nodup_cons] at hnd
      have hneq : ∀ it2 ∈ goodBlobs rest,
          extractVideoId it2.name now ≠ extractVideoId it0.name now := by
        intro it2 h2 heq
        exact hnd.1 (heq ▸ List.mem_map_of_mem _ h2)
      simp only [processBlobs, resolveVideo_eq_choose]
      rcases List.mem_cons.mp h with rfl | h2
      · rw [processBlobs_frame index metaById now _ rest _ _ hneq]
        exact mapGet?_mapSet_self mem _ _
      · rw [ih _ _ hnd.2 it h2]
        rw [mapGet?_mapSet_ne mem _ _ _ (fun hx => hneq it h2 hx.symm)]

/-- C7 counterexample: the same storage state (one metadata document, two
blobs sharing derived id `"7"`, the second matching the document by URL) run
twice from an empty cache yields two different sorted lists — the second run
resolves the first blob from the cache seeded by the first run and the
surviving record's url flips from the second blob's to the first blob's. -/
theorem getVideos_idempotent_cex :
    ((getVideos demoStorage [] 99).1).data
      ≠ ((getVideos demoStorage (getVideos demoStorage [] 99).2 99).1).data := by
  decide

/-- C7 (amended): reconciliation is idempotent whenever the successfully
listed blobs have pairwise-distinct derived ids — running `getVideos` twice
over an unchanged storage state then yields an identical sorted list. -/
theorem getVideos_idempotent_of_distinct_ids (st : StorageListing)
    (videos : List (String × Video)) (now : Nat)
    (hnd : ((goodBlobs (st.blobItems.getD [])).map
      (fun it => extractVideoId it.name now)).Nodup) :
    ((getVideos st (getVideos st videos now).2 now).1).data
      = ((getVideos st videos now).1).data := by
  cases hm : st.metaItems with
  | none => cases hb : st.blobItems <;> simp [getVideos, hm, hb]
  | some metaItems =>
    cases hb : st.blobItems with
    | none => simp [getVideos, hm, hb]
    | some items =>
      rw [hb] at hnd
      simp only [Option.getD_some] at hnd
      simp only [getVideos, hm, hb]
      have hmain :
          (processBlobs (buildMetadataIndex metaItems) st.metaById now items
            (processBlobs (buildMetadataIndex metaItems) st.metaById now items videos []).1 []).2
          = (processBlobs (buildMetadataIndex metaItems) st.metaById now items videos []).2 := by
        rw [processBlobs_closed_form _ _ _ items videos [] hnd (fun it _ => rfl)]
        rw [processBlobs_closed_form _ _ _ items _ [] hnd (fun it _ => rfl)]
        refine congrArg _ ?_
        unfold runChoices
        apply List.map_eq_map_iff.mpr
        intro it h
        rw [processBlobs_mem_get _ _ _ items videos [] hnd it h]
        rw [chooseVideo_fixpoint]
      rw [hmain]

theorem getVideos_idempotent_witness :
    ((getVideos demoStorageSingle ((getVideos demoStorageSingle [] 99).2) 99).1).data
      = ((getVideos demoStorageSingle [] 99).1).data :=
  getVideos_idempotent_of_distinct_ids demoStorageSingle [] 99 (by decide)

/-! ## Lemmas for per-item failure isolation (C10) -/

theorem mapGet?_mapSet_isSome (m : List (String × Video)) (k k2 : String)
    (v w : Video) (h : mapGet? m k = some w) :
    ∃ w2, mapGet? (mapSet m k2 v) k = some w2 := by
  by_cases hk : k2 = k
  · exact ⟨v, hk ▸ mapGet?_mapSet_self m k2 v⟩
  · exact ⟨w, by rw [mapGet?_mapSet_ne m k2 k v hk]; exact h⟩

theorem metaFold_skips_failures (items : List (Option Video)) :
    ∀ idx : List (String × Video),
    items.foldl
        (fun idx it =>
          match it with
          | none => idx
          | some videoData => mapSet idx (cleanUrl videoData.url) videoData) idx
      = (List.map some (items.filterMap id)).foldl
        (fun idx it =>
          match it with
          | none => idx
          | some videoData => mapSet idx (cleanUrl videoData.url) videoData) idx := by
  induction items with
  | nil => intro idx; rfl
  | cons hd rest ih =>
    intro idx
    cases hd with
    | none => simpa using ih idx
    | some v => simpa using ih (mapSet idx (cleanUrl v.url) v)

theorem metaFold_preserves (items : List (Option Video)) :
    ∀ (idx : List (String × Video)) (k : String) (w : Video),
    mapGet? idx k = some w →
    ∃ w2, mapGet? (items.foldl
        (fun idx it =>
          match it with
          | none => idx
          | some videoData => mapSet idx (cleanUrl videoData.url) videoData) idx) k
      = some w2 := by
  induction items with
  | nil => intro idx k w h; exact ⟨w, h⟩
  | cons hd rest ih =>
    intro idx k w h
    cases hd with
    | none => exact ih idx k w h
    | some v =>
      obtain ⟨w2, hw2⟩ := mapGet?_mapSet_isSome idx k (cleanUrl v.url) v w h
      exact ih (mapSet idx (cleanUrl v.url) v) k w2 hw2

theorem buildMetadataIndex_mem (items : List (Option Video)) :
    ∀ idx : List (String × Video), ∀ v, some v ∈ items →
    ∃ w, mapGet? (items.foldl
        (fun idx it =>
          match it with
          | none => idx
          | some videoData => mapSet idx (cleanUrl videoData.url) videoData) idx)
      (cleanUrl v.url) = some w := by
  induction items with
  | nil => intro idx v hv; exact absurd hv (List.not_mem_nil _)
  | cons hd rest ih =>
    intro idx v hv
    rcases List.mem_cons.mp hv with heq | hmem
    · cases heq
      exact metaFold_preserves rest _ _ v (mapGet?_mapSet_self idx (cleanUrl v.url) v)
    · cases hd with
      | none => exact ih idx v hmem
      | some v2 => exact ih (mapSet idx (cleanUrl v2.url) v2) v hmem

theorem processBlobs_skips_failures (index : List (String × Video))
    (metaById : String → Option Video) (now : Nat) :
    ∀ (items : List (Option BlobItem)) (mem vm : List (String × Video)),
    processBlobs index metaById now items mem vm
      = processBlobs index metaById now (List.map some (items.filterMap id)) mem vm := by
  intro items
  induction items with
  | nil => intro mem vm; rfl
  | cons hd rest ih =>
    intro mem vm
    cases hd with
    | none => simpa using ih mem vm
    | some it =>
      simpa [processBlobs] using
        ih (resolveVideo index metaById mem it now).2
          (mergeIntoMap vm (extractVideoId it.name now) (resolveVideo index metaById mem it now).1)

theorem mergeIntoMap_key_isSome (vm : List (String × Video)) (k : String) (v : Video) :
    ∃ w, mapGet? (mergeIntoMap vm k v) k = some w := by
  cases h : mapGet? vm k with
  | none =>
    refine ⟨v, ?_⟩
    simp only [mergeIntoMap, h]
    exact mapGet?_mapSet_self vm k v
  | some existing =>
    by_cases hc : (hasTranscriptText v && !(hasTranscriptText existing)) = true
    · refine ⟨v, ?_⟩
      simp only [mergeIntoMap, h, if_pos hc]
      exact mapGet?_mapSet_self vm k v
    · refine ⟨existing, ?_⟩
      simp only [mergeIntoMap, h, if_neg hc]

theorem mergeIntoMap_preserves (vm : List (String × Video)) (k k2 : String)
    (v w : Video) (h : mapGet? vm k = some w) :
    ∃ w2, mapGet? (mergeIntoMap vm k2 v) k = some w2 := by
  cases h2 : mapGet? vm k2 with
  | none =>
    simp only [mergeIntoMap, h2]
    exact mapGet?_mapSet_isSome vm k k2 v w h
  | some existing =>
    by_cases hc : (hasTranscriptText v && !(hasTranscriptText existing)) = true
    · simp only [mergeIntoMap, h2, if_pos hc]
      exact mapGet?_mapSet_isSome vm k k2 v w h
    · simp only [mergeIntoMap, h2, if_neg hc]
      exact ⟨w, h⟩

theorem processBlobs_map_preserves (index : List (String × Video))
    (metaById : String → Option Video) (now : Nat) :
    ∀ (items : List (Option BlobItem)) (mem vm : List (String × Video))
      (k : String) (w : Video), mapGet? vm k = some w →
    ∃ w2, mapGet? (processBlobs index metaById now items mem vm).2 k = some w2 := by
  intro items
  induction items with
  | nil => intro mem vm k w h; exact ⟨w, h⟩
  | cons hd rest ih =>
    intro mem vm k w h
    cases hd with
    | none => exact ih mem vm k w h
    | some it =>
      obtain ⟨w2, hw2⟩ := mergeIntoMap_preserves vm k
        (extractVideoId it.name now) (resolveVideo index metaById mem it now).1 w h
      exact ih (resolveVideo index metaById mem it now).2 _ k w2 hw2

theorem processBlobs_key_of_mem (index : List (String × Video))
    (metaById : String → Option Video) (now : Nat) :
    ∀ (items : List (Option BlobItem)) (mem vm : List (String × Video))
      (item : BlobItem), some item ∈ items →
    ∃ v, mapGet? (processBlobs index metaById now items mem vm).2
      (extractVideoId item.name now) = some v := by
  intro items
  induction items with
  | nil => intro mem vm item h; exact absurd h (List.not_mem_nil _)
  | cons hd rest ih =>
    intro mem vm item h
    rcases List.mem_cons.mp h with heq | hmem
    · cases heq
      obtain ⟨w, hw⟩ := mergeIntoMap_key_isSome vm (extractVideoId item.name now)
        (resolveVideo index metaById mem item now).1
      exact processBlobs_map_preserves index metaById now rest
        (resolveVideo index metaById mem item now).2 _ _ w hw
    · cases hd with
      | none => exact ih mem vm item hmem
      | some it0 => exact ih (resolveVideo index metaById mem it0 now).2 _ item hmem

theorem mapGet?_some_mem_values (m : List (String × Video)) (k : String)
    (v : Video) (h : mapGet? m k = some v) : v ∈ mapValues m := by
  induction m with
  | nil => simp [mapGet?] at h
  | cons hd tl ih =>
    obtain ⟨k2, v2⟩ := hd
    by_cases hk : k2 = k
    · simp [mapGet?, hk] at h
      simp [mapValues, h]
    · simp only [mapGet?, if_neg hk] at h
      simp [mapValues] at ih ⊢
      exact Or.inr (ih h)

theorem mem_insertDesc (a v : Video) (l : List Video) :
    a ∈ insertDesc v l ↔ a = v ∨ a ∈ l := by
  induction l with
  | nil => simp [insertDesc]
  | cons w rest ih =>
    by_cases h : w.uploadedAt < v.uploadedAt
    · simp [insertDesc, h]
    · simp [insertDesc, h, ih]
      tauto

theorem mem_sortVideos (a : Video) (l : List Video) :
    a ∈ sortVideos l ↔ a ∈ l := by
  have general : ∀ acc, a ∈ l.foldl (fun acc v => insertDesc v acc) acc ↔ a ∈ acc ∨ a ∈ l := by
    induction l with
    | nil => intro acc; simp
    | cons v rest ih =>
      intro acc
      rw [List.foldl_cons, ih (insertDesc v acc), mem_insertDesc]
      simp
      tauto
  simpa [sortVideos] using general []

/-- C10: per-item failures are isolated — the reconciler's outcome over a
listing equals its outcome over the successfully fetched items alone, every
successfully fetched metadata document is indexed under its canonical URL,
and every successfully fetched blob contributes a record under its derived
id that appears in the returned list. -/
theorem getVideos_item_isolation (st : StorageListing)
    (videos : List (String × Video)) (now : Nat)
    (metaItems : List (Option Video)) (items : List (Option BlobItem))
    (hm : st.metaItems = some metaItems) (hb : st.blobItems = some items) :
    buildMetadataIndex metaItems
      = buildMetadataIndex (List.map some (metaItems.filterMap id)) ∧
    processBlobs (buildMetadataIndex metaItems) st.metaById now items videos []
      = processBlobs (buildMetadataIndex metaItems) st.metaById now
          (List.map some (items.filterMap id)) videos [] ∧
    (∀ v, some v ∈ metaItems →
      ∃ w, mapGet? (buildMetadataIndex metaItems) (cleanUrl v.url) = some w) ∧
    (∀ item, some item ∈ items →
      ∃ v, mapGet? (processBlobs (buildMetadataIndex metaItems) st.metaById now
              items videos []).2 (extractVideoId item.name now) = some v ∧
           v ∈ ((getVideos st videos now).1).data) := by
  refine ⟨metaFold_skips_failures metaItems [], ?_, ?_, ?_⟩
  · exact processBlobs_skips_failures _ _ _ items videos []
  · intro v hv
    exact buildMetadataIndex_mem metaItems [] v hv
  · intro item hitem
    obtain ⟨v, hv⟩ := processBlobs_key_of_mem (buildMetadataIndex metaItems)
      st.metaById now items videos [] item hitem
    refine ⟨v, hv, ?_⟩
    simp only [getVideos, hm, hb]
    rw [mem_sortVideos]
    exact mapGet?_some_mem_values _ _ v hv

theorem getVideos_item_isolation_witness :
    ∃ w, mapGet? (buildMetadataIndex [none, some demoMetaDoc])
      (cleanUrl demoMetaDoc.url) = some w :=
  (getVideos_item_isolation demoStorageMixed [] 99 [none, some demoMetaDoc]
    [none, some demoBlobA] rfl rfl).2.2.1 demoMetaDoc (by simp)

end VideoApp
